import Mathlib

/-!
Verification development for the CatXL treaty / window-search helpers.

The Python source (`helpers.py`) is embedded shallowly over `ℚ`:

* `treaty_CatXL deductible limit` embeds `treaty_CatXL(deductible, limit)`:
  the returned closure `lambda losses: min(max(sum(losses) - deductible, 0),
  limit - deductible)` becomes a function of the loss list.  The construction
  assert `limit > deductible` becomes a hypothesis of the theorems.
* `treaty_inuring_CatXL d1 l1 d2 l2` embeds the two-level inuring closure.
* `treaty_CatXL_program dVec lVec` embeds the program closure
  `sum(treaty_CatXL(d, lVec[i])(losses) for i, d in enumerate(dVec))`;
  the paired iteration over `dVec` and `lVec` is rendered as `dVec.zip lVec`
  (identical whenever the two lists have equal length, which the theorems
  assume where it matters).  The construction asserts become `program_valid`.
* `find_window windowLen treatyFunc timeVec lossVec` embeds `find_window`.
  The per-anchor loop body `curTimes = timeVec[i:] < t + windowLen;
  curLosses = lossVec[i:][curTimes]` becomes `curLosses` over the zipped
  suffix, the running-maximum update becomes `find_step` folded over the
  per-anchor `(time, payout)` list `anchor_payouts`, and the final
  `return bestTimes[0], bestTimes, maxPayout` — which raises `IndexError`
  when `bestTimes` is empty — becomes an `Option` of the result triple,
  `none` on the empty best-times list.
-/

/-- Payout of a single CatXL layer: `min(max(sum(losses) - deductible, 0),
limit - deductible)`. -/
def treaty_CatXL (deductible limit : ℚ) (losses : List ℚ) : ℚ :=
  min (max (losses.sum - deductible) 0) (limit - deductible)

/-- Two-level inuring CatXL: the first layer pays on the total, the second on
the leftover `sum(losses) - payout1`. -/
def treaty_inuring_CatXL (d1 l1 d2 l2 : ℚ) (losses : List ℚ) : ℚ :=
  let payout1 := treaty_CatXL d1 l1 losses
  let leftover := losses.sum - payout1
  let payout2 := min (max (leftover - d2) 0) (l2 - d2)
  payout1 + payout2

/-- Program of CatXL layers, each evaluated independently on the same losses
and the payouts summed. -/
def treaty_CatXL_program (dVec lVec : List ℚ) (losses : List ℚ) : ℚ :=
  ((dVec.zip lVec).map (fun p => treaty_CatXL p.1 p.2 losses)).sum

/-- The construction-time asserts of `treaty_CatXL_program`: equal lengths,
`d < lVec[i]` for every layer, and `d >= lVec[i-1]` for every layer after the
first. -/
def program_valid (dVec lVec : List ℚ) : Prop :=
  dVec.length = lVec.length ∧
  (∀ p ∈ dVec.zip lVec, p.1 < p.2) ∧
  List.Chain' (fun p q : ℚ × ℚ => p.2 ≤ q.1) (dVec.zip lVec)

instance (dVec lVec : List ℚ) : Decidable (program_valid dVec lVec) := by
  unfold program_valid; infer_instance

/-- The amounts in the window anchored at `t`: of the remaining `(time, amount)`
pairs (the suffix starting at the anchor itself), those with `time < t +
windowLen`.  This is `lossVec[i:][timeVec[i:] < t + windowLen]`. -/
def curLosses (windowLen t : ℚ) (suffix : List (ℚ × ℚ)) : List ℚ :=
  (suffix.filter (fun p => p.1 < t + windowLen)).map Prod.snd

/-- The `(time, payout)` pair each loop iteration of `find_window` computes:
anchor `i` evaluates the treaty on the window amounts drawn from the suffix
starting at `i`. -/
def anchor_payouts (windowLen : ℚ) (f : List ℚ → ℚ) : List (ℚ × ℚ) → List (ℚ × ℚ)
  | [] => []
  | (t, a) :: rest =>
      (t, f (curLosses windowLen t ((t, a) :: rest))) :: anchor_payouts windowLen f rest

/-- The running-maximum update of `find_window`: `if payout == maxPayout:
bestTimes.append(t)  elif payout > maxPayout: maxPayout = payout; bestTimes
= [t]`. -/
def find_step (s : ℚ × List ℚ) (tp : ℚ × ℚ) : ℚ × List ℚ :=
  if tp.2 = s.1 then (s.1, s.2 ++ [tp.1])
  else if s.1 < tp.2 then (tp.2, [tp.1])
  else s

/-- The search `find_window(windowLen, treatyFunc, timeVec, lossVec)`: scan the anchors in
timeline order starting from `maxPayout = 0, bestTimes = []`, then
`return bestTimes[0], bestTimes, maxPayout`; the final indexing raises on an
empty `bestTimes`, modelled as `none`. -/
def find_window (windowLen : ℚ) (treatyFunc : List ℚ → ℚ)
    (timeVec lossVec : List ℚ) : Option (ℚ × List ℚ × ℚ) :=
  let res := (anchor_payouts windowLen treatyFunc (timeVec.zip lossVec)).foldl find_step (0, [])
  match res.2 with
  | [] => none
  | b :: bs => some (b, b :: bs, res.1)

/-- C1: on the timeline `[(0,5), (1,10), (2,20)]` with `windowLength = 2` and
a single layer `deductible = 10, limit = 30`, the per-anchor payouts are 5, 20
and 10, and `find_window` returns `maxPayout = 20`, `allBestTimes = [1]` and
`canonicalBestTime = 1`. -/
theorem find_window_concrete_scenario :
    anchor_payouts 2 (treaty_CatXL 10 30) ([0, 1, 2].zip [5, 10, 20])
        = [(0, 5), (1, 20), (2, 10)] ∧
    find_window 2 (treaty_CatXL 10 30) [0, 1, 2] [5, 10, 20] = some (1, [1], 20) := by
  constructor
  · norm_num [anchor_payouts, curLosses, treaty_CatXL, min_def, max_def, List.filter]
  · norm_num [find_window, anchor_payouts, curLosses, treaty_CatXL, find_step, min_def,
      max_def, List.filter]

/-- A clamp `min (max x 0) lo` vanishes when `x ≤ 0` and `0 ≤ lo`. -/
lemma clamp_nonpos_eq_zero (x lo : ℚ) (hx : x ≤ 0) (hlo : 0 ≤ lo) :
    min (max x 0) lo = 0 := by
  rw [max_eq_right hx, min_eq_left hlo]

/-- A clamp `min (max x 0) lo` is non-negative when `0 ≤ lo`. -/
lemma clamp_nonneg (x lo : ℚ) (hlo : 0 ≤ lo) : 0 ≤ min (max x 0) lo :=
  le_min (le_max_right _ _) hlo

/-- C3: for a layer with `deductible < limit` and non-negative losses, the
single-layer payout is `clamp(sum(losses) − deductible, 0, limit − deductible)`
and lies between `0` and `limit − deductible`. -/
theorem treaty_CatXL_clamp_and_bounds (d l : ℚ) (losses : List ℚ)
    (hdl : d < l) (hnn : ∀ x ∈ losses, 0 ≤ x) :
    treaty_CatXL d l losses = min (max (losses.sum - d) 0) (l - d) ∧
    0 ≤ treaty_CatXL d l losses ∧ treaty_CatXL d l losses ≤ l - d :=
  ⟨rfl, clamp_nonneg _ _ (by linarith), min_le_right _ _⟩

/-- Witness for C3 at `d = 10`, `l = 30`, `losses = [5, 10]`. -/
theorem treaty_CatXL_clamp_and_bounds_witness :
    treaty_CatXL 10 30 [5, 10] = min (max (([5, 10] : List ℚ).sum - 10) 0) (30 - 10) ∧
    0 ≤ treaty_CatXL 10 30 [5, 10] ∧ treaty_CatXL 10 30 [5, 10] ≤ 30 - 10 :=
  treaty_CatXL_clamp_and_bounds 10 30 [5, 10] (by norm_num) (by norm_num)

/-- C4: the two-level inuring payout is `payout1 + payout2` where `payout1`
clamps the total against the first layer and `payout2` clamps the residual
`total − payout1` against the second layer; moreover chain order matters
(swapping the two layers changes the payout on a concrete input). -/
theorem treaty_inuring_CatXL_two_layer (d1 l1 d2 l2 : ℚ) (losses : List ℚ)
    (h1 : d1 < l1) (h2 : d2 < l2) :
    treaty_inuring_CatXL d1 l1 d2 l2 losses =
      min (max (losses.sum - d1) 0) (l1 - d1) +
      min (max (losses.sum - min (max (losses.sum - d1) 0) (l1 - d1) - d2) 0) (l2 - d2) ∧
    treaty_inuring_CatXL 0 10 5 30 [20] ≠ treaty_inuring_CatXL 5 30 0 10 [20] := by
  refine ⟨rfl, ?_⟩
  norm_num [treaty_inuring_CatXL, treaty_CatXL, min_def, max_def]

/-- Witness for C4 at `(d1, l1) = (0, 10)`, `(d2, l2) = (5, 30)`,
`losses = [20]`. -/
theorem treaty_inuring_CatXL_two_layer_witness :
    treaty_inuring_CatXL 0 10 5 30 [20] =
      min (max (([20] : List ℚ).sum - 0) 0) (10 - 0) +
      min (max (([20] : List ℚ).sum - min (max (([20] : List ℚ).sum - 0) 0) (10 - 0) - 5) 0)
        (30 - 5) ∧
    treaty_inuring_CatXL 0 10 5 30 [20] ≠ treaty_inuring_CatXL 5 30 0 10 [20] :=
  treaty_inuring_CatXL_two_layer 0 10 5 30 [20] (by norm_num) (by norm_num)

/-- C5: a validated program pays each layer independently against the same
aggregate total (evaluating every layer on the one-element list
`[sum(losses)]` gives the same result), and the total payout is bounded by
`Σ (limit_i − deductible_i)`. -/
theorem treaty_CatXL_program_independent_layers (dVec lVec : List ℚ) (losses : List ℚ)
    (h : program_valid dVec lVec) :
    treaty_CatXL_program dVec lVec losses =
      ((dVec.zip lVec).map (fun p => treaty_CatXL p.1 p.2 [losses.sum])).sum ∧
    treaty_CatXL_program dVec lVec losses ≤ ((dVec.zip lVec).map (fun p => p.2 - p.1)).sum := by
  constructor
  · simp [treaty_CatXL_program, treaty_CatXL]
  · exact List.sum_le_sum fun p _ => min_le_right _ _

/-- Witness for C5 at the program `[(10, 30), (30, 60)]`, `losses = [5, 10]`. -/
theorem treaty_CatXL_program_independent_layers_witness :
    treaty_CatXL_program [10, 30] [30, 60] [5, 10] =
      (([10, 30].zip [30, 60]).map
        (fun p => treaty_CatXL p.1 p.2 [([5, 10] : List ℚ).sum])).sum ∧
    treaty_CatXL_program [10, 30] [30, 60] [5, 10] ≤
      (([10, 30].zip [30, 60]).map (fun p : ℚ × ℚ => p.2 - p.1)).sum :=
  treaty_CatXL_program_independent_layers [10, 30] [30, 60] [5, 10]
    (by constructor <;> norm_num [List.chain'_cons])

/-- C10: with non-negative deductibles, non-negative losses and valid layers,
the two-level inuring payout never exceeds the total loss. -/
theorem treaty_inuring_CatXL_le_total (d1 l1 d2 l2 : ℚ) (losses : List ℚ)
    (h1 : d1 < l1) (h2 : d2 < l2) (hd1 : 0 ≤ d1) (hd2 : 0 ≤ d2)
    (hnn : ∀ x ∈ losses, 0 ≤ x) :
    treaty_inuring_CatXL d1 l1 d2 l2 losses ≤ losses.sum := by
  have hs : 0 ≤ losses.sum := List.sum_nonneg hnn
  simp only [treaty_inuring_CatXL, treaty_CatXL]
  have h1a : min (max (losses.sum - d1) 0) (l1 - d1) ≤ losses.sum :=
    le_trans (min_le_left _ _) (max_le (by linarith) hs)
  have h1b : 0 ≤ min (max (losses.sum - d1) 0) (l1 - d1) :=
    clamp_nonneg _ _ (by linarith)
  have h2a : min (max (losses.sum - min (max (losses.sum - d1) 0) (l1 - d1) - d2) 0) (l2 - d2) ≤
      losses.sum - min (max (losses.sum - d1) 0) (l1 - d1) :=
    le_trans (min_le_left _ _) (max_le (by linarith) (by linarith))
  linarith

/-- Witness for C10 at `(10, 30, 30, 60)`, `losses = [50]`. -/
theorem treaty_inuring_CatXL_le_total_witness :
    treaty_inuring_CatXL 10 30 30 60 [50] ≤ ([50] : List ℚ).sum :=
  treaty_inuring_CatXL_le_total 10 30 30 60 [50] (by norm_num) (by norm_num)
    (by norm_num) (by norm_num) (by norm_num)

/-- The closed set of treaty-evaluator variants the source constructs:
a single CatXL layer, a two-level inuring chain, and a program. -/
inductive Treaty where
  | single (d l : ℚ)
  | inuring (d1 l1 d2 l2 : ℚ)
  | program (dVec lVec : List ℚ)

/-- Dispatch a treaty variant to its payout function from the source. -/
def Treaty.payout : Treaty → List ℚ → ℚ
  | .single d l, losses => treaty_CatXL d l losses
  | .inuring d1 l1 d2 l2, losses => treaty_inuring_CatXL d1 l1 d2 l2 losses
  | .program dVec lVec, losses => treaty_CatXL_program dVec lVec losses

/-- The construction-time asserts of each variant. -/
def Treaty.valid : Treaty → Prop
  | .single d l => d < l
  | .inuring d1 l1 d2 l2 => d1 < l1 ∧ d2 < l2
  | .program dVec lVec => program_valid dVec lVec

/-- All deductibles of the variant are non-negative. -/
def Treaty.nonnegDeductibles : Treaty → Prop
  | .single d _ => 0 ≤ d
  | .inuring d1 _ d2 _ => 0 ≤ d1 ∧ 0 ≤ d2
  | .program dVec _ => ∀ d ∈ dVec, 0 ≤ d

/-- Every valid treaty variant pays a non-negative amount on any loss list. -/
lemma Treaty.payout_nonneg (T : Treaty) (hv : T.valid) (losses : List ℚ) :
    0 ≤ T.payout losses := by
  cases T with
  | single d l =>
      exact clamp_nonneg _ _ (by simp only [Treaty.valid] at hv; linarith)
  | inuring d1 l1 d2 l2 =>
      obtain ⟨h1, h2⟩ := hv
      simp only [Treaty.payout, treaty_inuring_CatXL]
      have := clamp_nonneg (losses.sum - treaty_CatXL d1 l1 losses - d2) (l2 - d2)
        (by linarith)
      have := clamp_nonneg (losses.sum - d1) (l1 - d1) (by linarith)
      simp only [treaty_CatXL] at *
      linarith
  | program dVec lVec =>
      apply List.sum_nonneg
      intro x hx
      obtain ⟨p, hp, rfl⟩ := List.mem_map.mp hx
      exact clamp_nonneg _ _ (by have := hv.2.1 p hp; linarith)

/-- C8 counterexample: the single-layer variant with the valid parameters
`deductible = -5, limit = 1` (the construction assert `limit > deductible`
holds) pays `5 ≠ 0` on the empty amount list. -/
theorem treaty_payout_empty_nonzero :
    (Treaty.single (-5) 1).valid ∧ (Treaty.single (-5) 1).payout [] = 5 ∧ (5 : ℚ) ≠ 0 := by
  refine ⟨by norm_num [Treaty.valid], ?_, by norm_num⟩
  norm_num [Treaty.payout, treaty_CatXL, min_def, max_def]

/-- C8 (amended): every valid treaty variant with non-negative deductibles
pays `0` on the empty amount list, so an empty window contributes payout `0`
to the search. -/
theorem treaty_payout_empty_zero (T : Treaty) (hv : T.valid) (hd : T.nonnegDeductibles) :
    T.payout [] = 0 := by
  cases T with
  | single d l =>
      simp only [Treaty.valid] at hv
      simp only [Treaty.nonnegDeductibles] at hd
      simp only [Treaty.payout, treaty_CatXL, List.sum_nil]
      exact clamp_nonpos_eq_zero _ _ (by linarith) (by linarith)
  | inuring d1 l1 d2 l2 =>
      obtain ⟨h1, h2⟩ := hv
      obtain ⟨hd1, hd2⟩ := hd
      simp only [Treaty.payout, treaty_inuring_CatXL, treaty_CatXL, List.sum_nil]
      rw [clamp_nonpos_eq_zero (0 - d1) (l1 - d1) (by linarith) (by linarith)]
      rw [clamp_nonpos_eq_zero (0 - 0 - d2) (l2 - d2) (by linarith) (by linarith)]
      norm_num
  | program dVec lVec =>
      simp only [Treaty.payout, treaty_CatXL_program]
      apply List.sum_eq_zero
      intro x hx
      obtain ⟨p, hp, rfl⟩ := List.mem_map.mp hx
      have hpd : p.1 ∈ dVec := (List.of_mem_zip hp).1
      have hlt : p.1 < p.2 := hv.2.1 p hp
      simp only [treaty_CatXL, List.sum_nil]
      exact clamp_nonpos_eq_zero _ _ (by have := hd p.1 hpd; linarith) (by linarith)

/-- Witness for the amended C8 at the single layer `(10, 30)`. -/
theorem treaty_payout_empty_zero_witness :
    (Treaty.single 10 30).payout [] = 0 :=
  treaty_payout_empty_zero (Treaty.single 10 30) (by norm_num [Treaty.valid])
    (by norm_num [Treaty.nonnegDeductibles])

/-- The seed is a lower bound of a left max-fold. -/
lemma le_foldl_max : ∀ (ps : List ℚ) (M : ℚ), M ≤ ps.foldl max M
  | [], _ => le_refl _
  | p :: ps, M => le_trans (le_max_left M p) (le_foldl_max ps (max M p))

/-- A left max-fold is bounded by any upper bound of the seed and the list. -/
lemma foldl_max_le (b : ℚ) : ∀ (ps : List ℚ) (M : ℚ),
    M ≤ b → (∀ x ∈ ps, x ≤ b) → ps.foldl max M ≤ b
  | [], _, hMb, _ => hMb
  | p :: ps, M, hMb, h =>
      foldl_max_le b ps (max M p) (max_le hMb (h p (List.mem_cons_self p ps)))
        (fun x hx => h x (List.mem_cons_of_mem _ hx))

/-- Every list member is bounded by the left max-fold. -/
lemma mem_le_foldl_max : ∀ (ps : List ℚ) (M x : ℚ), x ∈ ps → x ≤ ps.foldl max M
  | p :: ps, M, x, hx => by
      rcases List.mem_cons.mp hx with h | h
      · subst h
        exact le_trans (le_max_right M x) (le_foldl_max ps (max M x))
      · exact mem_le_foldl_max ps (max M p) x h

/-- A left max-fold equals `b` when `b` bounds the seed and the list and is
attained in the list. -/
lemma foldl_max_eq (ps : List ℚ) (M b : ℚ) (hMb : M ≤ b) (hmem : b ∈ ps)
    (hub : ∀ x ∈ ps, x ≤ b) : ps.foldl max M = b :=
  le_antisymm (foldl_max_le b ps M hMb hub) (mem_le_foldl_max ps M b hmem)

/-- The running maximum after folding `find_step` is the max of the seed and
all payouts seen. -/
lemma foldl_find_step_fst (tps : List (ℚ × ℚ)) : ∀ (M : ℚ) (B : List ℚ),
    (tps.foldl find_step (M, B)).1 = (tps.map Prod.snd).foldl max M := by
  induction tps with
  | nil => intro M B; rfl
  | cons tp tps ih =>
      intro M B
      obtain ⟨t, p⟩ := tp
      simp only [List.foldl_cons, List.map_cons]
      rcases lt_trichotomy p M with h | h | h
      · have hstep : find_step (M, B) (t, p) = (M, B) := by
          simp only [find_step]
          rw [if_neg (ne_of_lt h), if_neg (not_lt.mpr (le_of_lt h))]
        rw [hstep, ih M B, max_eq_left (le_of_lt h)]
      · subst h
        have hstep : find_step (p, B) (t, p) = (p, B ++ [t]) := by
          simp [find_step]
        rw [hstep, ih p (B ++ [t]), max_self]
      · have hstep : find_step (M, B) (t, p) = (p, [t]) := by
          simp only [find_step]
          rw [if_neg (ne_of_gt h), if_pos h]
        rw [hstep, ih p [t], max_eq_right (le_of_lt h)]

/-- The best-times list after folding `find_step`: the seed list survives only
when no payout exceeded the seed maximum, followed by the times of exactly the
anchors whose payout equals the final maximum. -/
lemma foldl_find_step_snd (tps : List (ℚ × ℚ)) : ∀ (M : ℚ) (B : List ℚ),
    (tps.foldl find_step (M, B)).2 =
      (if (tps.map Prod.snd).foldl max M = M then B else []) ++
        (tps.filter (fun p => p.2 = (tps.map Prod.snd).foldl max M)).map Prod.fst := by
  induction tps with
  | nil => intro M B; simp
  | cons tp tps ih =>
      intro M B
      obtain ⟨t, p⟩ := tp
      simp only [List.foldl_cons, List.map_cons]
      rcases lt_trichotomy p M with h | h | h
      · have hstep : find_step (M, B) (t, p) = (M, B) := by
          simp only [find_step]
          rw [if_neg (ne_of_lt h), if_neg (not_lt.mpr (le_of_lt h))]
        rw [hstep, ih M B]
        simp only [max_eq_left (le_of_lt h)]
        have hpM : p ≠ (tps.map Prod.snd).foldl max M :=
          ne_of_lt (lt_of_lt_of_le h (le_foldl_max _ _))
        simp [List.filter_cons, hpM]
      · subst h
        have hstep : find_step (p, B) (t, p) = (p, B ++ [t]) := by
          simp [find_step]
        rw [hstep, ih p (B ++ [t])]
        simp only [max_self]
        by_cases hM2 : (tps.map Prod.snd).foldl max p = p
        · simp [List.filter_cons, hM2]
        · simp [List.filter_cons, hM2, Ne.symm hM2]
      · have hstep : find_step (M, B) (t, p) = (p, [t]) := by
          simp only [find_step]
          rw [if_neg (ne_of_gt h), if_pos h]
        rw [hstep, ih p [t]]
        simp only [max_eq_right (le_of_lt h)]
        have hMne : (tps.map Prod.snd).foldl max p ≠ M :=
          ne_of_gt (lt_of_lt_of_le h (le_foldl_max _ _))
        by_cases hpM : p = (tps.map Prod.snd).foldl max p
        · simp [List.filter_cons, hMne, ← hpM]
          exact fun hpm => absurd hpm (ne_of_gt h)
        · simp [List.filter_cons, hMne, hpM]
          exact fun hh => hpM hh.symm

/-- Closed form of `find_window`: compute the per-anchor payouts, take the max
payout against the initial `0`, and keep the times of exactly those anchors
attaining it; the result is `none` precisely when that list of times is
empty. -/
lemma find_window_spec (wL : ℚ) (f : List ℚ → ℚ) (timeVec lossVec : List ℚ) :
    find_window wL f timeVec lossVec =
      match ((anchor_payouts wL f (timeVec.zip lossVec)).filter
            (fun p => p.2 =
              ((anchor_payouts wL f (timeVec.zip lossVec)).map Prod.snd).foldl max 0)).map
          Prod.fst with
      | [] => none
      | b :: bs => some (b, b :: bs,
          ((anchor_payouts wL f (timeVec.zip lossVec)).map Prod.snd).foldl max 0) := by
  have h2 := foldl_find_step_snd (anchor_payouts wL f (timeVec.zip lossVec)) 0 []
  have h1 := foldl_find_step_fst (anchor_payouts wL f (timeVec.zip lossVec)) 0 []
  simp only [ite_self, List.nil_append] at h2
  simp only [find_window]
  rw [h2, h1]

/-- The anchors of the payout list are exactly the event times, in order. -/
lemma anchor_payouts_map_fst (wL : ℚ) (f : List ℚ → ℚ) :
    ∀ events : List (ℚ × ℚ),
      (anchor_payouts wL f events).map Prod.fst = events.map Prod.fst
  | [] => rfl
  | (t, a) :: rest => by
      simp only [anchor_payouts, List.map_cons]
      rw [anchor_payouts_map_fst wL f rest]

/-- When every anchor's payout is `0`, the scan keeps `maxPayout = 0`, records
every anchor time as a tie, and returns the first event's time as canonical. -/
lemma find_window_zero_payouts_aux (wL : ℚ) (f : List ℚ → ℚ) (timeVec lossVec : List ℚ)
    (hne : timeVec ≠ []) (hlen : timeVec.length = lossVec.length)
    (hz : ∀ p ∈ anchor_payouts wL f (timeVec.zip lossVec), p.2 = 0) :
    find_window wL f timeVec lossVec = some (timeVec.headI, timeVec, 0) := by
  have hmax : ((anchor_payouts wL f (timeVec.zip lossVec)).map Prod.snd).foldl max 0 = 0 := by
    apply le_antisymm
    · apply foldl_max_le _ _ _ (le_refl 0)
      intro x hx
      obtain ⟨p, hp, rfl⟩ := List.mem_map.mp hx
      exact le_of_eq (hz p hp)
    · exact le_foldl_max _ _
  have hfilter : (anchor_payouts wL f (timeVec.zip lossVec)).filter
      (fun p => p.2 =
        ((anchor_payouts wL f (timeVec.zip lossVec)).map Prod.snd).foldl max 0)
      = anchor_payouts wL f (timeVec.zip lossVec) := by
    apply List.filter_eq_self.mpr
    intro p hp
    simp [hmax, hz p hp]
  rw [find_window_spec, hfilter, anchor_payouts_map_fst,
    List.map_fst_zip _ _ (le_of_eq hlen), hmax]
  cases timeVec with
  | nil => exact absurd rfl hne
  | cons b bs => simp [List.headI]

/-- C9: when the evaluator yields payout `0` on every candidate window of a
non-empty sorted timeline, `find_window` returns `maxPayout = 0`,
`allBestTimes` equal to the full ascending list of anchor times, and
`canonicalBestTime` equal to the first event's time. -/
theorem find_window_all_zero_payouts (wL : ℚ) (f : List ℚ → ℚ) (timeVec lossVec : List ℚ)
    (hne : timeVec ≠ []) (hlen : timeVec.length = lossVec.length)
    (hsorted : List.Sorted (· ≤ ·) timeVec)
    (hz : ∀ p ∈ anchor_payouts wL f (timeVec.zip lossVec), p.2 = 0) :
    find_window wL f timeVec lossVec = some (timeVec.headI, timeVec, 0) :=
  find_window_zero_payouts_aux wL f timeVec lossVec hne hlen hz

/-- Witness for C9: a single layer with deductible `100` above every window's
aggregate loss on the timeline `[(0,5), (1,10), (2,20)]` with window length
`2`. -/
theorem find_window_all_zero_payouts_witness :
    find_window 2 (treaty_CatXL 100 200) [0, 1, 2] [5, 10, 20] =
      some (([0, 1, 2] : List ℚ).headI, [0, 1, 2], 0) :=
  find_window_all_zero_payouts 2 (treaty_CatXL 100 200) [0, 1, 2] [5, 10, 20]
    (by simp) (by norm_num)
    (by norm_num [List.Sorted])
    (by norm_num [anchor_payouts, curLosses, treaty_CatXL, min_def, max_def, List.filter])

/-- With `windowLen ≤ 0` and times in ascending order, every anchor's window
is empty: the anchor itself fails `t < t + windowLen` and every later event's
time is at least `t`. -/
lemma anchor_payouts_nonpos_windowLen (wL : ℚ) (f : List ℚ → ℚ) (hw : wL ≤ 0) :
    ∀ events : List (ℚ × ℚ), List.Pairwise (fun p q : ℚ × ℚ => p.1 ≤ q.1) events →
      anchor_payouts wL f events = events.map (fun p => (p.1, f []))
  | [], _ => rfl
  | (t, a) :: rest, hs => by
      obtain ⟨hhead, htail⟩ := List.pairwise_cons.mp hs
      have hcur : curLosses wL t ((t, a) :: rest) = [] := by
        have hfil : List.filter (fun p : ℚ × ℚ => p.1 < t + wL) ((t, a) :: rest) = [] := by
          apply List.filter_eq_nil_iff.mpr
          intro p hp
          rcases List.mem_cons.mp hp with h | h
          · subst h
            simp only [decide_eq_true_eq, not_lt]
            linarith
          · have := hhead p h
            simp only [decide_eq_true_eq, not_lt]
            linarith
        simp [curLosses, hfil]
      simp only [anchor_payouts, hcur, List.map_cons]
      rw [anchor_payouts_nonpos_windowLen wL f hw rest htail]

/-- C2 counterexample: `windowLength = 0 ≤ 0` is accepted without error —
`find_window` still produces a full result on the one-event timeline
`[(0, 5)]` with a valid layer, instead of failing. -/
theorem find_window_accepts_nonpositive_windowLen :
    (0 : ℚ) ≤ 0 ∧
    find_window 0 (treaty_CatXL 10 30) [0] [5] = some (0, [0], 0) := by
  constructor
  · exact le_refl 0
  · norm_num [find_window, anchor_payouts, curLosses, treaty_CatXL, find_step, min_def,
      max_def, List.filter]

/-- C2 (amended): `find_window` performs no input validation.  On an empty
timeline it produces no result (the final `bestTimes[0]` indexing fails), but
for `windowLength ≤ 0` on a non-empty ascending timeline it happily computes:
every window is empty, so with an evaluator paying `0` on no losses it returns
`maxPayout = 0` with every anchor time tied. -/
theorem find_window_no_validation :
    (∀ (wL : ℚ) (f : List ℚ → ℚ), find_window wL f [] [] = none) ∧
    (∀ (wL : ℚ) (f : List ℚ → ℚ) (timeVec lossVec : List ℚ),
      wL ≤ 0 → timeVec ≠ [] → timeVec.length = lossVec.length →
      List.Sorted (· ≤ ·) timeVec → f [] = 0 →
      find_window wL f timeVec lossVec = some (timeVec.headI, timeVec, 0)) := by
  constructor
  · intro wL f
    rfl
  · intro wL f timeVec lossVec hw hne hlen hsorted hf0
    have hpw : List.Pairwise (fun p q : ℚ × ℚ => p.1 ≤ q.1) (timeVec.zip lossVec) := by
      apply List.pairwise_map.mp
      rw [List.map_fst_zip _ _ (le_of_eq hlen)]
      exact hsorted
    have hpl := anchor_payouts_nonpos_windowLen wL f hw (timeVec.zip lossVec) hpw
    apply find_window_zero_payouts_aux wL f timeVec lossVec hne hlen
    intro p hp
    rw [hpl] at hp
    obtain ⟨q, hq, rfl⟩ := List.mem_map.mp hp
    exact hf0

/-- Witness for the amended C2: both conjuncts at concrete inputs — the empty
timeline, and `windowLength = -1` on the sorted timeline `[(0,5), (1,10)]`
with a valid single layer. -/
theorem find_window_no_validation_witness :
    find_window 1 (treaty_CatXL 10 30) [] [] = none ∧
    find_window (-1) (treaty_CatXL 10 30) [0, 1] [5, 10] =
      some (([0, 1] : List ℚ).headI, [0, 1], 0) := by
  constructor
  · exact find_window_no_validation.1 1 (treaty_CatXL 10 30)
  · exact find_window_no_validation.2 (-1) (treaty_CatXL 10 30) [0, 1] [5, 10]
      (by norm_num) (by simp) (by norm_num)
      (by norm_num [List.Sorted])
      (by norm_num [treaty_CatXL, min_def, max_def])

/-- C7: on a one-event timeline with any positive window length and any valid
treaty variant as evaluator, the sole event's time is the only best time (and
hence canonical) and the maximum payout is the evaluator on the singleton
amount list. -/
theorem find_window_single_event (T : Treaty) (hT : T.valid) (wL t a : ℚ) (hw : 0 < wL) :
    find_window wL T.payout [t] [a] = some (t, [t], T.payout [a]) := by
  have hcur : curLosses wL t [(t, a)] = [a] := by
    simp [curLosses, List.filter_cons, show t < t + wL by linarith]
  have hpl : anchor_payouts wL T.payout ([t].zip [a]) = [(t, T.payout [a])] := by
    have hz : ([t].zip [a] : List (ℚ × ℚ)) = [(t, a)] := rfl
    rw [hz]
    simp [anchor_payouts, hcur]
  have hp := T.payout_nonneg hT [a]
  simp only [find_window, hpl, List.foldl_cons, List.foldl_nil]
  rcases eq_or_lt_of_le hp with h0 | h0
  · simp [find_step, ← h0]
  · simp [find_step, ne_of_gt h0, h0]

/-- Witness for C7: the single layer `(0, 10)` on the timeline `[(3, 4)]` with
window length `1`. -/
theorem find_window_single_event_witness :
    find_window 1 (Treaty.single 0 10).payout [3] [4] =
      some (3, [3], (Treaty.single 0 10).payout [4]) :=
  find_window_single_event (Treaty.single 0 10) (by norm_num [Treaty.valid]) 1 3 4
    (by norm_num)

/-- C6: tie handling of the scan.  (1) A payout strictly above the running
maximum resets the maximum and replaces the best-times list with the singleton
of that anchor's time; (2) a payout equal to the running maximum appends the
anchor's time; (3) the returned canonical time is the head of `allBestTimes`;
(4) when exactly two anchors, at distinct times in scan order, attain the
maximal payout, both times appear in `allBestTimes` and the canonical time is
the earlier of the two. -/
theorem find_window_tie_handling :
    (∀ (M : ℚ) (B : List ℚ) (t p : ℚ), M < p → find_step (M, B) (t, p) = (p, [t])) ∧
    (∀ (M : ℚ) (B : List ℚ) (t : ℚ), find_step (M, B) (t, M) = (M, B ++ [t])) ∧
    (∀ (wL : ℚ) (f : List ℚ → ℚ) (timeVec lossVec : List ℚ) (c m : ℚ) (bts : List ℚ),
      find_window wL f timeVec lossVec = some (c, bts, m) → bts.head? = some c) ∧
    (∀ (wL : ℚ) (f : List ℚ → ℚ) (timeVec lossVec : List ℚ)
        (pre mid post : List (ℚ × ℚ)) (ti tj M : ℚ),
      anchor_payouts wL f (timeVec.zip lossVec) = pre ++ (ti, M) :: mid ++ (tj, M) :: post →
      0 ≤ M → (∀ p ∈ pre ++ mid ++ post, p.2 < M) → ti < tj →
      find_window wL f timeVec lossVec = some (ti, [ti, tj], M) ∧ ti = min ti tj) := by
  refine ⟨?_, ?_, ?_, ?_⟩
  · intro M B t p h
    simp only [find_step]
    rw [if_neg (ne_of_gt h), if_pos h]
  · intro M B t
    simp [find_step]
  · intro wL f timeVec lossVec c m bts h
    simp only [find_window] at h
    rcases hsnd : (List.foldl find_step (0, [])
        (anchor_payouts wL f (timeVec.zip lossVec))).2 with _ | ⟨b, bs⟩
    · rw [hsnd] at h
      exact absurd h (by simp)
    · rw [hsnd] at h
      simp only [Option.some.injEq, Prod.mk.injEq] at h
      obtain ⟨hc, hbts, -⟩ := h
      rw [← hbts, ← hc]
      rfl
  · intro wL f timeVec lossVec pre mid post ti tj M hdecomp hM hothers hij
    have hne : ∀ p ∈ pre ++ mid ++ post, p.2 ≠ M := fun p hp => ne_of_lt (hothers p hp)
    have hmax : ((pre ++ (ti, M) :: mid ++ (tj, M) :: post).map Prod.snd).foldl max 0 = M := by
      apply foldl_max_eq _ _ _ hM
      · refine List.mem_map.mpr ⟨(ti, M), ?_, rfl⟩
        simp
      · intro x hx
        obtain ⟨p, hp, rfl⟩ := List.mem_map.mp hx
        simp only [List.mem_append, List.mem_cons] at hp
        rcases hp with (hp | hp | hp) | (hp | hp)
        · exact le_of_lt (hothers p (List.mem_append_left _ (List.mem_append_left _ hp)))
        · simp [hp]
        · exact le_of_lt (hothers p (List.mem_append_left _ (List.mem_append_right _ hp)))
        · simp [hp]
        · exact le_of_lt (hothers p (List.mem_append_right _ hp))
    have hpre : List.filter (fun p : ℚ × ℚ => p.2 = M) pre = [] := by
      apply List.filter_eq_nil_iff.mpr
      intro p hp
      simpa using hne p (List.mem_append_left _ (List.mem_append_left _ hp))
    have hmid : List.filter (fun p : ℚ × ℚ => p.2 = M) mid = [] := by
      apply List.filter_eq_nil_iff.mpr
      intro p hp
      simpa using hne p (List.mem_append_left _ (List.mem_append_right _ hp))
    have hpost : List.filter (fun p : ℚ × ℚ => p.2 = M) post = [] := by
      apply List.filter_eq_nil_iff.mpr
      intro p hp
      simpa using hne p (List.mem_append_right _ hp)
    have hfilter : (pre ++ (ti, M) :: mid ++ (tj, M) :: post).filter
        (fun p : ℚ × ℚ => p.2 = M) = [(ti, M), (tj, M)] := by
      simp [List.filter_append, List.filter_cons, hpre, hmid, hpost]
    refine ⟨?_, (min_eq_left (le_of_lt hij)).symm⟩
    rw [find_window_spec, hdecomp]
    simp only [hmax, hfilter, List.map_cons, List.map_nil]

/-- Witness for C6: the layer `(0, 100)` on the timeline
`[(0,7), (10,5), (20,7)]` with window length `2` produces the tied maximal
payout `7` at anchors `0` and `20`; both are reported and the canonical time
is the earlier. -/
theorem find_window_tie_handling_witness :
    find_window 2 (treaty_CatXL 0 100) [0, 10, 20] [7, 5, 7] = some (0, [0, 20], 7) ∧
    (0 : ℚ) = min 0 20 :=
  find_window_tie_handling.2.2.2 2 (treaty_CatXL 0 100) [0, 10, 20] [7, 5, 7]
    [] [(10, 5)] [] 0 20 7
    (by norm_num [anchor_payouts, curLosses, treaty_CatXL, min_def, max_def, List.filter])
    (by norm_num)
    (by norm_num)
    (by norm_num)
